import Mathlib

/-!
Verification of the habit-tracker derivation layer and server handler.

The JavaScript sources are embedded shallowly:
* JS objects used as string/date keyed maps become association lists
  (`List (κ × α)`); property read is `getKey`, truthy read is `getBool`,
  property write is `setKey`, `delete` is `removeKey`.
* Calendar days are abstracted to integers (one unit = one day), so
  `todayKey`/`lastNDates` work on `ℤ` day numbers; `d.setDate(d.getDate()-i)`
  is subtraction of `i`.
* `Math.round` on a non-negative finite number is `jsRound : ℚ → ℤ`,
  `⌊x + 1/2⌋` (JS rounds halves toward +∞).
* The `while (true)` loop of `calculateStreak` is embedded with explicit
  fuel `history.length + 1`; a theorem below shows any fuel at least this
  large gives the same answer, so the bound is not a semantic restriction.
-/

namespace HabitApp

/-- JS object property read on an association list (`m[k]`, first binding wins). -/
def getKey {κ α : Type} [DecidableEq κ] : List (κ × α) → κ → Option α
  | [], _ => none
  | p :: rest, k => if p.1 = k then some p.2 else getKey rest k

/-- Truthy read of a boolean property: missing key is falsy (`m[k]` as a condition). -/
def getBool {κ : Type} [DecidableEq κ] (m : List (κ × Bool)) (k : κ) : Bool :=
  (getKey m k).getD false

/-- JS object property write `m[k] = v`: overwrite in place if the key exists,
append otherwise. -/
def setKey {κ α : Type} [DecidableEq κ] (m : List (κ × α)) (k : κ) (v : α) :
    List (κ × α) :=
  if m.any (fun p => p.1 = k) then
    m.map (fun p => if p.1 = k then (p.1, v) else p)
  else m ++ [(k, v)]

/-- JS `delete m[k]`. -/
def removeKey {κ α : Type} [DecidableEq κ] (m : List (κ × α)) (k : κ) :
    List (κ × α) :=
  m.filter (fun p => p.1 ≠ k)

/-- `Math.round` for non-negative finite doubles: floor of `x + 1/2`
(JS rounds exact halves toward plus infinity). -/
def jsRound (x : ℚ) : ℤ := ⌊x + 1 / 2⌋

/-- `{id, label}` habit record. -/
structure Habit where
  id : String
  label : String
deriving DecidableEq, Repr

/-- A `history[dateKey]` record: `{habits: {habitId: bool}}`.  The source
coerces a missing `habits` field with `|| {}` at every read, so the field is
total here. -/
structure HistoryEntry where
  habits : List (String × Bool)
deriving DecidableEq, Repr

/-- The history object: date key (abstract day number) to entry. -/
abbrev History := List (ℤ × HistoryEntry)

/-- `todayKey()` at abstract day number `today`. -/
def todayKey (today : ℤ) : ℤ := today

/-- `lastNDates(n)`: the loop pushes `today - i` for `i = n-1` down to `0`. -/
def lastNDates (today : ℤ) (n : ℕ) : List ℤ :=
  (List.range n).reverse.map (fun (i : ℕ) => today - (i : ℤ))

/-- `percentForDay(habitsMap, habitsList)`:
`total = habitsList?.length || 1`;
`completed = (habitsList || []).filter(h => habitsMap[h.id]).length`;
`Math.round((completed / total) * 100)`. -/
def percentForDay (habitsMap : List (String × Bool)) (habitsList : List Habit) : ℤ :=
  let total : ℕ := if habitsList.length = 0 then 1 else habitsList.length
  let completed : ℕ := (habitsList.filter (fun h => getBool habitsMap h.id)).length
  jsRound (((completed : ℚ) / (total : ℚ)) * 100)

/-- A day counts toward the streak when a history record exists for it and
`percentForDay(record.habits || {}, habits) === 100`. -/
def goodDay (history : History) (habits : List Habit) (d : ℤ) : Bool :=
  match getKey history d with
  | none => false
  | some record => percentForDay record.habits habits = 100

/-- One iteration structure of the `while (true)` loop of `calculateStreak`,
with explicit fuel. -/
def streakAux (history : History) (habits : List Habit) : ℕ → ℤ → ℕ
  | 0, _ => 0
  | fuel + 1, cursor =>
    match getKey history cursor with
    | none => 0
    | some record =>
      if percentForDay record.habits habits = 100 then
        streakAux history habits fuel (cursor - 1) + 1
      else 0

/-- `calculateStreak(history, habits)` anchored at abstract day `today`.
Fuel `history.length + 1` covers every possible run of the loop (proved
below: the loop stops after at most `history.length` successful steps). -/
def calculateStreak (history : History) (habits : List Habit) (today : ℤ) : ℕ :=
  streakAux history habits (history.length + 1) today

/-- `history[day]?.habits || {}`. -/
def dayHabitsMap (history : History) (day : ℤ) : List (String × Bool) :=
  match getKey history day with
  | some e => e.habits
  | none => []

/-- The weekly series: `lastNDates(7).map(day => percentForDay(history[day]?.habits || {}, habits))`. -/
def weeklyPercentages (history : History) (habits : List Habit) (today : ℤ) : List ℤ :=
  (lastNDates today 7).map (fun day => percentForDay (dayHabitsMap history day) habits)

/-- `weeklyAverage`: `0` for an empty series, else
`Math.round(series.reduce((sum, val) => sum + val, 0) / series.length)`. -/
def weeklyAverage (history : History) (habits : List Habit) (today : ℤ) : ℤ :=
  let ps := weeklyPercentages history habits today
  if ps.length = 0 then 0
  else jsRound (((ps.foldl (fun sum val => sum + val) 0 : ℤ) : ℚ) / (ps.length : ℚ))

/-- Count of entries in the weekly series equal to `100`. -/
def weeklyFullDays (history : History) (habits : List Habit) (today : ℤ) : ℕ :=
  ((weeklyPercentages history habits today).filter (fun p => p = 100)).length

/-- `habits.reduce((acc, h) => ({...acc, [h.id]: 0}), {})`: the counts object
seeded with `0` for every habit id, keys in first-insertion order. -/
def initCounts (habits : List Habit) : List (String × ℕ) :=
  habits.foldl (fun acc h => setKey acc h.id 0) []

/-- The per-day update of `monthlyInsight`:
`habits.forEach(h => { if (record.habits?.[h.id]) counts[h.id] += 1 })`
(`counts[h.id]` always exists after seeding; `getD 0` only covers the
impossible-missing read). -/
def bumpCounts (record : HistoryEntry) (habits : List Habit)
    (counts : List (String × ℕ)) : List (String × ℕ) :=
  habits.foldl
    (fun c h =>
      if getBool record.habits h.id then setKey c h.id ((getKey c h.id).getD 0 + 1)
      else c) counts

/-- The counts object of `monthlyInsight` after the
`days.forEach` loop over `lastNDates(30)` (days with no record are skipped). -/
def monthCounts (history : History) (habits : List Habit) (today : ℤ) :
    List (String × ℕ) :=
  (lastNDates today 30).foldl
    (fun counts day =>
      match getKey history day with
      | none => counts
      | some record => bumpCounts record habits counts)
    (initCounts habits)

/-- `monthlyInsight(history, habits)`: `Object.entries(counts)` is the counts
association list itself; `best`/`worst` are the left-to-right reductions
preferring the later element only on strict improvement; the results are
looked up in the habit list (`|| null` is `Option`). -/
def monthlyInsight (history : History) (habits : List Habit) (today : ℤ) :
    Option Habit × Option Habit :=
  let entries := monthCounts history habits today
  match entries with
  | [] => (none, none)
  | e :: rest =>
    let best := rest.foldl (fun a b => if b.2 > a.2 then b else a) e
    let worst := rest.foldl (fun a b => if b.2 < a.2 then b else a) e
    (habits.find? (fun h => h.id = best.1), habits.find? (fun h => h.id = worst.1))

/-- The number of days in `lastNDates(30)` on which a history record exists
and marks the given habit id true — the value `monthlyInsight` accumulates
in `counts[hid]`. -/
def trueCount (history : History) (today : ℤ) (hid : String) : ℕ :=
  ((lastNDates today 30).filter (fun day =>
    match getKey history day with
    | some r => getBool r.habits hid
    | none => false)).length

/-- Characters kept verbatim by `slugify`'s regex class `[a-z0-9]`. -/
def slugChar (c : Char) : Bool := ('a' ≤ c && c ≤ 'z') || ('0' ≤ c && c ≤ '9')

/-- `.replace(/[^a-z0-9]+/g, '-')`: each maximal run of non-slug characters
becomes a single dash.  The boolean tracks whether we are inside such a run. -/
def collapseRuns : Bool → List Char → List Char
  | _, [] => []
  | inRun, c :: rest =>
    if slugChar c then c :: collapseRuns false rest
    else if inRun then collapseRuns true rest
    else '-' :: collapseRuns true rest

/-- `.replace(/(^-|-$)/g, '')`: after run-collapsing there is at most one
leading and one trailing dash; the regex strips one of each. -/
def stripEdgeDashes (l : List Char) : List Char :=
  let l1 := if l.head? = some '-' then l.drop 1 else l
  if l1.getLast? = some '-' then l1.dropLast else l1

/-- `slugify(text)`; `nowMs` stands for `Date.now()` in the emptiness
fallback.  `.toLowerCase()` is character-wise lowering. -/
def slugify (text : String) (nowMs : ℤ) : String :=
  let core := stripEdgeDashes (collapseRuns false (text.toList.map Char.toLower))
  let sliced := String.mk (core.take 30)
  if sliced = "" then s!"habit-{nowMs}" else sliced

/-- JS `String.prototype.trim()`: strip whitespace from both ends. -/
def jsTrim (s : String) : String :=
  String.mk (((s.toList.dropWhile (fun c => c.isWhitespace)).reverse.dropWhile
    (fun c => c.isWhitespace)).reverse)

/-- `handleAddHabit`: trim the input, slugify it into an id, refuse empty
input and duplicate ids, otherwise append the habit and back-fill `false`
under the new id into every existing history entry. -/
def handleAddHabit (habits : List Habit) (history : History) (input : String)
    (nowMs : ℤ) : List Habit × History :=
  let trimmed := jsTrim input
  if trimmed = "" then (habits, history)
  else
    let id := slugify trimmed nowMs
    if habits.any (fun h => h.id = id) then (habits, history)
    else
      (habits ++ [⟨id, trimmed⟩],
       history.map (fun e => (e.1, ⟨setKey e.2.habits id false⟩)))

/-- `handleDeleteHabit`: drop the habit from the list and delete its key from
every history entry's habit map. -/
def handleDeleteHabit (habits : List Habit) (history : History) (id : String) :
    List Habit × History :=
  (habits.filter (fun h => h.id ≠ id),
   history.map (fun e => (e.1, ⟨removeKey e.2.habits id⟩)))

/-- A to-do task; `reminderTime` is `none` for the empty string (falsy in the
`if (!task.reminderTime)` guard), otherwise the millisecond offset into the
day named by the date key. -/
structure Task where
  id : String
  text : String
  done : Bool
  reminderTime : Option ℤ
deriving DecidableEq, Repr

/-- The tasks-by-date object. -/
abbrev TasksByDate := List (ℤ × List Task)

/-- Milliseconds per day: `new Date(`date`T`time`)` at abstract day `date`
and time-of-day offset `tm` is the instant `date * msPerDay + tm`. -/
def msPerDay : ℤ := 86400000

/-- Handling of a single task inside `scheduleReminders`: skip an empty
`reminderTime`, skip a non-positive delay, otherwise register the one-shot
action under the task's id. -/
def registerTask (now date : ℤ) (reg : List (String × ℤ)) (task : Task) :
    List (String × ℤ) :=
  match task.reminderTime with
  | none => reg
  | some tm =>
    let delay := date * msPerDay + tm - now
    if delay ≤ 0 then reg else setKey reg task.id delay

/-- `scheduleReminders(tasksByDate, ref)`: every previously registered timer
is cleared and the registry is reset to `{}` before re-registering, so the
old registry does not influence the result; the new registry maps each
registered task id to its pending delay. -/
def scheduleReminders (_oldReg : List (String × ℤ)) (tasksByDate : TasksByDate)
    (now : ℤ) : List (String × ℤ) :=
  tasksByDate.foldl (fun reg entry => entry.2.foldl (registerTask now entry.1) reg) []

/-- A task is due for registration: non-empty `reminderTime` and a strictly
future fire instant. -/
def taskEligible (date now : ℤ) (task : Task) : Bool :=
  match task.reminderTime with
  | none => false
  | some tm => decide (0 < date * msPerDay + tm - now)

/-- Some task with the given id is due for registration somewhere in the
snapshot. -/
def eligible (tasksByDate : TasksByDate) (now : ℤ) (tid : String) : Bool :=
  tasksByDate.any (fun entry =>
    entry.2.any (fun task => task.id = tid && taskEligible entry.1 now task))

/-- Number of registered actions held for a given task id. -/
def timerCount (reg : List (String × ℤ)) (tid : String) : ℕ :=
  (reg.filter (fun p => p.1 = tid)).length

/-- `deleteTask(id)`: replace the selected date's list by the same list with
the task filtered out. -/
def deleteTask (tasksByDate : TasksByDate) (selectedDate : ℤ) (tid : String) :
    TasksByDate :=
  let list := (getKey tasksByDate selectedDate).getD []
  setKey tasksByDate selectedDate (list.filter (fun t => t.id ≠ tid))

/-! Concrete data used by the witness theorems below. -/

/-- Habit list with the single habit `a`. -/
def habitA : List Habit := [⟨"a", "A"⟩]

/-- History with perfect days 10 and 9 and a failed day 8, for the streak
witnesses. -/
def streakHist : History :=
  [(10, ⟨[("a", true)]⟩), (9, ⟨[("a", true)]⟩), (8, ⟨[("a", false)]⟩)]

/-- History for the weekly-average witness: days 4–10 with the single habit
done everywhere except day 6. -/
def weekHist : History :=
  [(4, ⟨[("a", true)]⟩), (5, ⟨[("a", true)]⟩), (6, ⟨[("a", false)]⟩),
   (7, ⟨[("a", true)]⟩), (8, ⟨[("a", true)]⟩), (9, ⟨[("a", true)]⟩),
   (10, ⟨[("a", true)]⟩)]

/-- History with a single date entry, for the habit-sync witnesses. -/
def oneDayHist : History := [(0, ⟨[("a", true)]⟩)]

/-- Tasks snapshot for the reminder witness: one task on day `1` with a
reminder offset of one hour into the day. -/
def witnessTasks : TasksByDate :=
  [(1, [⟨"t1", "buy milk", false, some 3600000⟩])]

end HabitApp

namespace HabitServer

open HabitApp (Habit History TasksByDate)

/-- The fixed seed habits of `server/index.js` (also duplicated client-side). -/
def DEFAULT_HABITS : List Habit :=
  [⟨"wake", "Wake up early"⟩,
   ⟨"exercise", "Exercise"⟩,
   ⟨"study", "Study / Learn new skill"⟩,
   ⟨"problems", "2 problems a day"⟩,
   ⟨"water", "Drink enough water"⟩,
   ⟨"meditate", "Meditation"⟩,
   ⟨"read", "Reading"⟩]

/-- The JSON value found at the `habits` field of a request body: either an
array of habit records or some non-array value. -/
inductive HabitsField where
  | arr (l : List Habit)
  | notArray
deriving DecidableEq

/-- `req.body` for `POST /api/data`; `none` fields are absent (or `null`,
which the `|| {}` / destructuring defaults treat alike for our purposes). -/
structure DataBody where
  habits : Option HabitsField
  history : Option History
  tasksByDate : Option TasksByDate

/-- The document stored (and echoed back) by the upsert. -/
structure SavedDoc where
  mobile : String
  habits : List Habit
  history : History
  tasksByDate : TasksByDate

/-- The update document built by the `POST /api/data` handler:
destructuring defaults (`habits = DEFAULT_HABITS`, `history = {}`,
`tasksByDate = {}`), then
`Array.isArray(habits) && habits.length ? habits : DEFAULT_HABITS`.
The Mongo upsert stores exactly this document and the response returns it. -/
def postDataHandler (mobile : String) (body : DataBody) : SavedDoc :=
  let habitsField := body.habits.getD (.arr DEFAULT_HABITS)
  { mobile := mobile
    habits :=
      match habitsField with
      | .arr l => if l.length ≠ 0 then l else DEFAULT_HABITS
      | .notArray => DEFAULT_HABITS
    history := body.history.getD []
    tasksByDate := body.tasksByDate.getD [] }

end HabitServer

namespace HabitApp

/-! ### Association-list lemmas -/

theorem getKey_some_mem {κ α : Type} [DecidableEq κ] {m : List (κ × α)} {k : κ}
    {v : α} (h : getKey m k = some v) : k ∈ m.map Prod.fst := by
  induction m with
  | nil => simp [getKey] at h
  | cons p rest ih =>
    by_cases hp : p.1 = k
    · simp [hp]
    · rw [getKey, if_neg hp] at h
      simp [ih h]

theorem getKey_eq_none {κ α : Type} [DecidableEq κ] {m : List (κ × α)} {k : κ}
    (h : k ∉ m.map Prod.fst) : getKey m k = none := by
  induction m with
  | nil => rfl
  | cons p rest ih =>
    simp only [List.map_cons, List.mem_cons] at h
    push_neg at h
    rw [getKey, if_neg (fun hp => h.1 hp.symm)]
    exact ih h.2

theorem setKey_nil {κ α : Type} [DecidableEq κ] (k : κ) (v : α) :
    setKey ([] : List (κ × α)) k v = [(k, v)] := by
  simp [setKey]

theorem setKey_cons_eq {κ α : Type} [DecidableEq κ] {p : κ × α}
    {rest : List (κ × α)} {k : κ} (v : α) (hp : p.1 = k) :
    setKey (p :: rest) k v
      = (p.1, v) :: rest.map (fun q => if q.1 = k then (q.1, v) else q) := by
  have hany : ((p :: rest).any (fun q => q.1 = k)) = true := by
    simp [List.any_cons, hp]
  rw [setKey, if_pos hany, List.map_cons, if_pos hp]

theorem setKey_cons_ne {κ α : Type} [DecidableEq κ] {p : κ × α}
    {rest : List (κ × α)} {k : κ} (v : α) (hp : p.1 ≠ k) :
    setKey (p :: rest) k v = p :: setKey rest k v := by
  by_cases hr : (rest.any (fun q => q.1 = k)) = true
  · have hany : ((p :: rest).any (fun q => q.1 = k)) = true := by
      simp [List.any_cons, hr]
    rw [setKey, if_pos hany, setKey, if_pos hr, List.map_cons, if_neg hp]
  · have hany : ¬ ((p :: rest).any (fun q => q.1 = k)) = true := by
      simp only [List.any_cons, Bool.or_eq_true, decide_eq_true_eq]
      push_neg
      exact ⟨hp, by simpa using hr⟩
    rw [setKey, if_neg hany, setKey, if_neg hr, List.cons_append]

theorem getKey_map_setval_ne {κ α : Type} [DecidableEq κ] (rest : List (κ × α))
    (k k' : κ) (v : α) (hne : k' ≠ k) :
    getKey (rest.map (fun q => if q.1 = k then (q.1, v) else q)) k'
      = getKey rest k' := by
  induction rest with
  | nil => rfl
  | cons q t ih =>
    by_cases hq : q.1 = k
    · have hq' : ¬ q.1 = k' := fun h => hne (h.symm.trans hq)
      rw [List.map_cons, if_pos hq, getKey, getKey]
      simp only [if_neg hq']
      exact ih
    · rw [List.map_cons, if_neg hq, getKey, getKey]
      by_cases hq' : q.1 = k'
      · simp [hq']
      · simp only [if_neg hq']
        exact ih

theorem getKey_setKey_self {κ α : Type} [DecidableEq κ] (m : List (κ × α))
    (k : κ) (v : α) : getKey (setKey m k v) k = some v := by
  induction m with
  | nil => simp [setKey_nil, getKey]
  | cons p rest ih =>
    by_cases hp : p.1 = k
    · rw [setKey_cons_eq v hp, getKey, if_pos hp]
    · rw [setKey_cons_ne v hp, getKey, if_neg hp]
      exact ih

theorem getKey_setKey_ne {κ α : Type} [DecidableEq κ] (m : List (κ × α))
    (k k' : κ) (v : α) (hne : k' ≠ k) :
    getKey (setKey m k v) k' = getKey m k' := by
  induction m with
  | nil =>
    rw [setKey_nil]
    show (if k = k' then some v else getKey [] k') = getKey [] k'
    rw [if_neg (fun h => hne h.symm)]
  | cons p rest ih =>
    by_cases hp : p.1 = k
    · have hp' : ¬ p.1 = k' := fun h => hne (h.symm.trans hp)
      rw [setKey_cons_eq v hp, getKey, if_neg hp', getKey, if_neg hp']
      exact getKey_map_setval_ne rest k k' v hne
    · rw [setKey_cons_ne v hp, getKey, getKey]
      by_cases hp' : p.1 = k'
      · simp [hp']
      · simp only [if_neg hp']
        exact ih

theorem mem_setKey {κ α : Type} [DecidableEq κ] {m : List (κ × α)} {k : κ}
    {v : α} {x : κ × α} (hx : x ∈ setKey m k v) :
    x = (k, v) ∨ (x ∈ m ∧ x.1 ≠ k) := by
  induction m with
  | nil =>
    rw [setKey_nil] at hx
    left
    simpa using hx
  | cons p rest ih =>
    by_cases hp : p.1 = k
    · rw [setKey_cons_eq v hp] at hx
      rcases List.mem_cons.mp hx with hx | hx
      · left
        rw [hx, hp]
      · rcases List.mem_map.mp hx with ⟨q, hq, hqx⟩
        by_cases hqk : q.1 = k
        · left
          rw [← hqx, if_pos hqk, hqk]
        · right
          rw [if_neg hqk] at hqx
          exact ⟨hqx ▸ List.mem_cons_of_mem p hq, hqx ▸ hqk⟩
    · rw [setKey_cons_ne v hp] at hx
      rcases List.mem_cons.mp hx with hx | hx
      · right
        exact ⟨hx ▸ List.mem_cons_self p rest, hx ▸ hp⟩
      · rcases ih hx with h | ⟨h1, h2⟩
        · left
          exact h
        · right
          exact ⟨List.mem_cons_of_mem p h1, h2⟩

theorem getKey_removeKey_self {κ α : Type} [DecidableEq κ] (m : List (κ × α))
    (k : κ) : getKey (removeKey m k) k = none := by
  induction m with
  | nil => rfl
  | cons p rest ih =>
    by_cases hp : p.1 = k
    · rw [removeKey, List.filter_cons]
      simp only [hp, ne_eq, not_true_eq_false, decide_False, if_false]
      exact ih
    · rw [removeKey, List.filter_cons]
      simp only [ne_eq, hp, not_false_eq_true, decide_True, if_true]
      rw [getKey, if_neg hp]
      exact ih

theorem getKey_removeKey_ne {κ α : Type} [DecidableEq κ] (m : List (κ × α))
    (k k' : κ) (hne : k' ≠ k) : getKey (removeKey m k) k' = getKey m k' := by
  induction m with
  | nil => rfl
  | cons p rest ih =>
    by_cases hp : p.1 = k
    · have hp' : ¬ p.1 = k' := fun h => hne (h.symm.trans hp)
      rw [removeKey, List.filter_cons]
      simp only [hp, ne_eq, not_true_eq_false, decide_False, if_false]
      rw [getKey, if_neg hp']
      exact ih
    · rw [removeKey, List.filter_cons]
      simp only [ne_eq, hp, not_false_eq_true, decide_True, if_true]
      rw [getKey, getKey]
      by_cases hp' : p.1 = k'
      · simp [hp']
      · simp only [if_neg hp']
        exact ih

/-! ### `jsRound` bounds -/

theorem jsRound_nonneg {x : ℚ} (hx : 0 ≤ x) : 0 ≤ jsRound x := by
  unfold jsRound
  have : (0 : ℚ) ≤ x + 1 / 2 := by linarith
  exact Int.le_floor.mpr (by exact_mod_cast this)

theorem jsRound_le {x : ℚ} {b : ℤ} (hx : x ≤ b) : jsRound x ≤ b := by
  unfold jsRound
  have : x + 1 / 2 < (b : ℚ) + 1 := by linarith
  have := Int.floor_lt.mpr (by exact_mod_cast this)
  omega

theorem jsRound_zero : jsRound 0 = 0 := by
  unfold jsRound
  norm_num

/-! ### `percentForDay` helpers -/

theorem percentForDay_nonneg (m : List (String × Bool)) (H : List Habit) :
    0 ≤ percentForDay m H := by
  unfold percentForDay
  apply jsRound_nonneg
  positivity

theorem percentForDay_le_100 (m : List (String × Bool)) (H : List Habit) :
    percentForDay m H ≤ 100 := by
  unfold percentForDay
  apply jsRound_le
  rcases Nat.eq_zero_or_pos H.length with h0 | hpos
  · rw [if_pos h0]
    have : (H.filter (fun h => getBool m h.id)).length = 0 := by
      rw [List.length_eq_zero] at h0 ⊢
      simp [h0]
    rw [this]
    norm_num
  · rw [if_neg (Nat.pos_iff_ne_zero.mp hpos)]
    have hle : ((H.filter (fun h => getBool m h.id)).length : ℚ) ≤ (H.length : ℚ) := by
      exact_mod_cast List.length_filter_le _ H
    have hLpos : (0 : ℚ) < (H.length : ℚ) := by exact_mod_cast hpos
    have : ((H.filter (fun h => getBool m h.id)).length : ℚ) / (H.length : ℚ) ≤ 1 :=
      (div_le_one hLpos).mpr hle
    calc ((H.filter (fun h => getBool m h.id)).length : ℚ) / (H.length : ℚ) * 100
        ≤ 1 * 100 := by nlinarith
      _ = (100 : ℤ) := by norm_num

theorem percentForDay_nil_habits (m : List (String × Bool)) :
    percentForDay m [] = 0 := by
  unfold percentForDay
  simpa using jsRound_zero

theorem percentForDay_nil_map (H : List Habit) : percentForDay [] H = 0 := by
  unfold percentForDay
  have hf : H.filter (fun h => getBool [] h.id) = [] := by
    simp [getBool, getKey]
  rw [hf]
  simpa using jsRound_zero

/-! ### `lastNDates` helpers -/

theorem lastNDates_succ (t : ℤ) (n : ℕ) :
    lastNDates t (n + 1) = (t - n) :: lastNDates t n := by
  unfold lastNDates
  rw [List.range_succ, List.reverse_append]
  simp

theorem lastNDates_length (t : ℤ) (n : ℕ) : (lastNDates t n).length = n := by
  unfold lastNDates
  rw [List.length_map, List.length_reverse, List.length_range]

theorem mem_lastNDates {t : ℤ} {n : ℕ} {x : ℤ} :
    x ∈ lastNDates t n ↔ ∃ i : ℕ, i < n ∧ x = t - i := by
  unfold lastNDates
  constructor
  · intro hx
    rcases List.mem_map.mp hx with ⟨i, hi, rfl⟩
    exact ⟨i, by simpa using hi, rfl⟩
  · rintro ⟨i, hi, rfl⟩
    exact List.mem_map.mpr ⟨i, by simpa using hi, rfl⟩

theorem lastNDates_sorted (t : ℤ) (n : ℕ) :
    List.Sorted (· < ·) (lastNDates t n) := by
  induction n with
  | zero => exact List.sorted_nil
  | succ m ih =>
    rw [lastNDates_succ]
    refine List.sorted_cons.mpr ⟨fun b hb => ?_, ih⟩
    rcases mem_lastNDates.mp hb with ⟨i, hi, rfl⟩
    have : (i : ℤ) < (m : ℤ) := by exact_mod_cast hi
    omega

theorem lastNDates_getLast? (t : ℤ) : ∀ n : ℕ, 1 ≤ n →
    (lastNDates t n).getLast? = some t := by
  intro n
  induction n with
  | zero => omega
  | succ m ih =>
    intro _
    match m, ih with
    | 0, _ =>
      show (lastNDates t 1).getLast? = some t
      have : lastNDates t 1 = [t - (0 : ℕ)] := by
        rw [lastNDates_succ]
        rfl
      rw [this]
      simp
    | m' + 1, ih =>
      rw [lastNDates_succ, lastNDates_succ, List.getLast?_cons_cons,
        ← lastNDates_succ]
      exact ih (by omega)

/-! ### Claim C1 -/

/-- C1: `percentForDay(M, H)` equals `round(100 * completed / max(|H|, 1))`
where `completed` counts habits of `H` present-and-true in `M`; the result is
an integer in `[0, 100]`, `0` for empty `H` (any `M`) and `0` for empty `M`
(any `H`). -/
theorem percentForDay_spec (M : List (String × Bool)) (H : List Habit) :
    percentForDay M H
        = jsRound ((100 * ((H.filter (fun h => getBool M h.id)).length : ℚ))
            / ((max H.length 1 : ℕ) : ℚ)) ∧
      0 ≤ percentForDay M H ∧ percentForDay M H ≤ 100 ∧
      (H = [] → percentForDay M H = 0) ∧
      (M = [] → percentForDay M H = 0) := by
  refine ⟨?_, percentForDay_nonneg M H, percentForDay_le_100 M H,
    fun hH => by rw [hH]; exact percentForDay_nil_habits M,
    fun hM => by rw [hM]; exact percentForDay_nil_map H⟩
  unfold percentForDay
  have ht : (if H.length = 0 then 1 else H.length) = max H.length 1 := by
    rcases Nat.eq_zero_or_pos H.length with h0 | hpos
    · rw [if_pos h0, h0]
      simp
    · rw [if_neg (Nat.pos_iff_ne_zero.mp hpos), Nat.max_eq_left hpos]
  rw [ht]
  ring_nf

theorem percentForDay_spec_witness :
    percentForDay [] [⟨"wake", "Wake up early"⟩] = 0 :=
  (percentForDay_spec [] [⟨"wake", "Wake up early"⟩]).2.2.2.2 rfl

/-! ### Claim C3 -/

/-- C3: for `n ≥ 1`, `lastNDates(n)` has length exactly `n`, is sorted
ascending, and its last element is `todayKey()`. -/
theorem lastNDates_spec (today : ℤ) (n : ℕ) (hn : 1 ≤ n) :
    (lastNDates today n).length = n ∧
      List.Sorted (· < ·) (lastNDates today n) ∧
      (lastNDates today n).getLast? = some (todayKey today) :=
  ⟨lastNDates_length today n, lastNDates_sorted today n,
    lastNDates_getLast? today n hn⟩

theorem lastNDates_spec_witness :
    (lastNDates 5 3).length = 3 ∧
      List.Sorted (· < ·) (lastNDates 5 3) ∧
      (lastNDates 5 3).getLast? = some (todayKey 5) :=
  lastNDates_spec 5 3 (by decide)

/-! ### Claim C6 -/

/-- C6: the derivation layer is total (all embedded functions are Lean
functions); a day with no history entry reaches `percentForDay` as the empty
map and yields `0`, for every habit list. -/
theorem percentForDay_total_missing (habits : List Habit) (history : History)
    (day : ℤ) :
    (getKey history day = none →
      dayHabitsMap history day = [] ∧
        percentForDay (dayHabitsMap history day) habits = 0) ∧
      percentForDay [] habits = 0 := by
  constructor
  · intro h
    have hmap : dayHabitsMap history day = [] := by
      rw [dayHabitsMap, h]
    exact ⟨hmap, by rw [hmap]; exact percentForDay_nil_map habits⟩
  · exact percentForDay_nil_map habits

theorem percentForDay_total_missing_witness :
    dayHabitsMap [] 0 = [] ∧
      percentForDay (dayHabitsMap [] 0)
        [⟨"wake", "Wake up early"⟩, ⟨"read", "Reading"⟩] = 0 :=
  (percentForDay_total_missing [⟨"wake", "Wake up early"⟩, ⟨"read", "Reading"⟩]
    [] 0).1 rfl

/-! ### Streak engine lemmas -/

theorem streakAux_none {history : History} {habits : List Habit} {f : ℕ}
    {cursor : ℤ} (hk : getKey history cursor = none) :
    streakAux history habits (f + 1) cursor = 0 := by
  rw [streakAux, hk]

theorem streakAux_pos {history : History} {habits : List Habit} {f : ℕ}
    {cursor : ℤ} {record : HistoryEntry}
    (hk : getKey history cursor = some record)
    (hp : percentForDay record.habits habits = 100) :
    streakAux history habits (f + 1) cursor
      = streakAux history habits f (cursor - 1) + 1 := by
  rw [streakAux, hk]
  exact if_pos hp

theorem streakAux_neg {history : History} {habits : List Habit} {f : ℕ}
    {cursor : ℤ} {record : HistoryEntry}
    (hk : getKey history cursor = some record)
    (hp : ¬ percentForDay record.habits habits = 100) :
    streakAux history habits (f + 1) cursor = 0 := by
  rw [streakAux, hk]
  exact if_neg hp

theorem goodDay_none {history : History} {habits : List Habit} {d : ℤ}
    (hk : getKey history d = none) : goodDay history habits d = false := by
  rw [goodDay, hk]

theorem goodDay_some {history : History} {habits : List Habit} {d : ℤ}
    {record : HistoryEntry} (hk : getKey history d = some record) :
    goodDay history habits d = decide (percentForDay record.habits habits = 100) := by
  rw [goodDay, hk]

theorem streakAux_good (history : History) (habits : List Habit) :
    ∀ (fuel : ℕ) (cursor : ℤ) (i : ℕ),
      i < streakAux history habits fuel cursor →
      goodDay history habits (cursor - i) = true := by
  intro fuel
  induction fuel with
  | zero =>
    intro cursor i hi
    simp [streakAux] at hi
  | succ f ih =>
    intro cursor i hi
    cases hk : getKey history cursor with
    | none =>
      rw [streakAux_none hk] at hi
      omega
    | some record =>
      by_cases hp : percentForDay record.habits habits = 100
      · rw [streakAux_pos hk hp] at hi
        match i with
        | 0 =>
          rw [Nat.cast_zero, sub_zero, goodDay_some hk]
          simp [hp]
        | j + 1 =>
          have hj : j < streakAux history habits f (cursor - 1) := by omega
          have hgj := ih (cursor - 1) j hj
          have harith : cursor - 1 - (j : ℤ) = cursor - ((j + 1 : ℕ) : ℤ) := by
            push_cast
            ring
          rw [harith] at hgj
          exact hgj
      · rw [streakAux_neg hk hp] at hi
        omega

theorem streakAux_stop (history : History) (habits : List Habit) :
    ∀ (fuel : ℕ) (cursor : ℤ),
      streakAux history habits fuel cursor < fuel →
      goodDay history habits
        (cursor - (streakAux history habits fuel cursor : ℤ)) = false := by
  intro fuel
  induction fuel with
  | zero => omega
  | succ f ih =>
    intro cursor hlt
    cases hk : getKey history cursor with
    | none =>
      rw [streakAux_none hk, Nat.cast_zero, sub_zero]
      exact goodDay_none hk
    | some record =>
      by_cases hp : percentForDay record.habits habits = 100
      · rw [streakAux_pos hk hp] at hlt ⊢
        have hlt' : streakAux history habits f (cursor - 1) < f := by omega
        have hrec := ih (cursor - 1) hlt'
        have harith : cursor - 1 - (streakAux history habits f (cursor - 1) : ℤ)
            = cursor - ((streakAux history habits f (cursor - 1) + 1 : ℕ) : ℤ) := by
          push_cast
          ring
        rw [harith] at hrec
        exact hrec
      · rw [streakAux_neg hk hp, Nat.cast_zero, sub_zero, goodDay_some hk]
        simp [hp]

theorem streakAux_run (history : History) (habits : List Habit) :
    ∀ (k fuel : ℕ) (cursor : ℤ),
      (∀ i : ℕ, i < k → goodDay history habits (cursor - i) = true) →
      goodDay history habits (cursor - k) = false →
      k < fuel →
      streakAux history habits fuel cursor = k := by
  intro k
  induction k with
  | zero =>
    intro fuel cursor _ hstop hfuel
    rw [Nat.cast_zero, sub_zero] at hstop
    match fuel, hfuel with
    | f + 1, _ =>
      cases hk : getKey history cursor with
      | none => exact streakAux_none hk
      | some record =>
        rw [goodDay_some hk] at hstop
        have hp : ¬ percentForDay record.habits habits = 100 := by
          simpa using hstop
        exact streakAux_neg hk hp
  | succ k ih =>
    intro fuel cursor hgood hstop hfuel
    match fuel, hfuel with
    | f + 1, _ =>
      have h0 : goodDay history habits cursor = true := by
        have hg := hgood 0 (by omega)
        rw [Nat.cast_zero, sub_zero] at hg
        exact hg
      cases hk : getKey history cursor with
      | none => rw [goodDay_none hk] at h0; exact absurd h0 (by simp)
      | some record =>
        rw [goodDay_some hk] at h0
        simp only [decide_eq_true_eq] at h0
        rw [streakAux_pos hk h0]
        have hrec : streakAux history habits f (cursor - 1) = k := by
          apply ih f (cursor - 1)
          · intro i hi
            have hg := hgood (i + 1) (by omega)
            have harith : cursor - ((i + 1 : ℕ) : ℤ) = cursor - 1 - (i : ℤ) := by
              push_cast
              ring
            rw [harith] at hg
            exact hg
          · have harith : cursor - ((k + 1 : ℕ) : ℤ) = cursor - 1 - (k : ℤ) := by
              push_cast
              ring
            rw [harith] at hstop
            exact hstop
          · omega
        omega

theorem streak_le_length (history : History) (habits : List Habit)
    (cursor : ℤ) (s : ℕ)
    (hgood : ∀ i : ℕ, i < s → goodDay history habits (cursor - i) = true) :
    s ≤ history.length := by
  have hkeys : ∀ i : ℕ, i < s → (cursor - (i : ℤ)) ∈ history.map Prod.fst := by
    intro i hi
    have hg := hgood i hi
    cases hk : getKey history (cursor - (i : ℤ)) with
    | none => rw [goodDay_none hk] at hg; exact absurd hg (by simp)
    | some r => exact getKey_some_mem hk
  have hnd : ((List.range s).map (fun (i : ℕ) => cursor - (i : ℤ))).Nodup := by
    refine List.Nodup.map ?_ (List.nodup_range s)
    intro a b hab
    simp only at hab
    omega
  have hsub : ((List.range s).map (fun (i : ℕ) => cursor - (i : ℤ)))
      ⊆ history.map Prod.fst := by
    intro x hx
    rcases List.mem_map.mp hx with ⟨i, hi, rfl⟩
    exact hkeys i (List.mem_range.mp hi)
  have hle := (List.Nodup.subperm hnd hsub).length_le
  simpa using hle

/-! ### Claim C2 -/

/-- C2: with the last `k` days (today included) all present at 100% and day
`k+1` back either absent or below 100%, `calculateStreak` returns exactly
`k`; `k = 0` covers "today absent or not 100%". -/
theorem calculateStreak_spec (history : History) (habits : List Habit)
    (today : ℤ) (k : ℕ)
    (hgood : ∀ i : ℕ, i < k → goodDay history habits (today - i) = true)
    (hstop : goodDay history habits (today - k) = false) :
    calculateStreak history habits today = k := by
  have hk : k ≤ history.length := streak_le_length history habits today k hgood
  exact streakAux_run history habits k (history.length + 1) today hgood hstop
    (by omega)

theorem calculateStreak_spec_witness :
    calculateStreak streakHist habitA 10 = 2 := by
  apply calculateStreak_spec streakHist habitA 10 2
  · intro i hi
    interval_cases i
    · show goodDay streakHist habitA 10 = true
      simp [goodDay, streakHist, habitA, getKey, percentForDay, getBool]
      norm_num [jsRound]
    · show goodDay streakHist habitA 9 = true
      simp [goodDay, streakHist, habitA, getKey, percentForDay, getBool]
      norm_num [jsRound]
  · show goodDay streakHist habitA 8 = false
    simp [goodDay, streakHist, habitA, getKey, percentForDay, getBool]
    norm_num [jsRound]

/-! ### Claim C10 -/

/-- C10: the streak loop terminates — any fuel at least `history.length + 1`
computes the same value, i.e. the loop always exits within `|history| + 1`
iterations — and the result never exceeds the number of history entries. -/
theorem calculateStreak_fuel_bound (history : History) (habits : List Habit)
    (today : ℤ) :
    (∀ fuel : ℕ, history.length + 1 ≤ fuel →
      streakAux history habits fuel today
        = calculateStreak history habits today) ∧
      calculateStreak history habits today ≤ history.length := by
  have hs : calculateStreak history habits today
      = streakAux history habits (history.length + 1) today := rfl
  have hbound : streakAux history habits (history.length + 1) today
      ≤ history.length :=
    streak_le_length history habits today _
      (streakAux_good history habits (history.length + 1) today)
  refine ⟨fun fuel hf => ?_, by rw [hs]; exact hbound⟩
  rw [hs]
  exact streakAux_run history habits
    (streakAux history habits (history.length + 1) today) fuel today
    (streakAux_good history habits (history.length + 1) today)
    (streakAux_stop history habits (history.length + 1) today (by omega))
    (by omega)

theorem calculateStreak_fuel_bound_witness :
    streakAux streakHist habitA 20 10 = calculateStreak streakHist habitA 10 ∧
      calculateStreak streakHist habitA 10 ≤ streakHist.length :=
  ⟨(calculateStreak_fuel_bound streakHist habitA 10).1 20 (by decide),
    (calculateStreak_fuel_bound streakHist habitA 10).2⟩

/-! ### Claim C4 -/

theorem foldl_add_eq_sum (ps : List ℤ) :
    ps.foldl (fun sum val => sum + val) 0 = ps.sum := by
  have haux : ∀ (l : List ℤ) (a : ℤ), l.foldl (fun sum val => sum + val) a
      = a + l.sum := by
    intro l
    induction l with
    | nil => intro a; simp
    | cons x t ih =>
      intro a
      rw [List.foldl_cons, ih, List.sum_cons]
      ring
  rw [haux]
  ring

theorem weekHist_percentages :
    weeklyPercentages weekHist habitA 10 = [100, 100, 0, 100, 100, 100, 100] := by
  have hdays : lastNDates 10 7 = [4, 5, 6, 7, 8, 9, 10] := by decide
  rw [weeklyPercentages, hdays]
  simp only [List.map_cons, List.map_nil, dayHabitsMap, weekHist, habitA,
    getKey]
  norm_num [percentForDay, jsRound, getBool, getKey]

/-- C4: the weekly average is `round(mean(weekly series))` where the series
maps `lastNDates(7)` through `percentForDay` with empty maps for absent days;
the series `[100,100,0,100,100,100,100]` yields `86`. -/
theorem weeklyAverage_spec (history : History) (habits : List Habit)
    (today : ℤ) :
    weeklyAverage history habits today
        = jsRound ((((weeklyPercentages history habits today).sum : ℤ) : ℚ) / 7) ∧
      weeklyPercentages weekHist habitA 10 = [100, 100, 0, 100, 100, 100, 100] ∧
      weeklyAverage weekHist habitA 10 = 86 := by
  have hgen : ∀ (h : History) (hb : List Habit) (t : ℤ),
      weeklyAverage h hb t
        = jsRound ((((weeklyPercentages h hb t).sum : ℤ) : ℚ) / 7) := by
    intro h hb t
    have hlen : (weeklyPercentages h hb t).length = 7 := by
      rw [weeklyPercentages, List.length_map, lastNDates_length]
    rw [weeklyAverage]
    simp only [hlen]
    rw [if_neg (by omega), foldl_add_eq_sum]
    norm_num
  refine ⟨hgen history habits today, weekHist_percentages, ?_⟩
  rw [hgen weekHist habitA 10, weekHist_percentages]
  norm_num [jsRound]

/-! ### Reminder-scheduler lemmas -/

theorem keys_nodup_setKey {κ α : Type} [DecidableEq κ] {m : List (κ × α)}
    (k : κ) (v : α) (h : (m.map Prod.fst).Nodup) :
    ((setKey m k v).map Prod.fst).Nodup := by
  unfold setKey
  by_cases hmem : (m.any (fun p => p.1 = k)) = true
  · rw [if_pos hmem]
    have hfst : (m.map (fun p => if p.1 = k then (p.1, v) else p)).map Prod.fst
        = m.map Prod.fst := by
      rw [List.map_map]
      apply List.map_congr_left
      intro p _
      by_cases hp : p.1 = k
      · simp [hp]
      · simp [hp]
    rw [hfst]
    exact h
  · rw [if_neg hmem, List.map_append]
    have hk : k ∉ m.map Prod.fst := by
      intro hkmem
      rcases List.mem_map.mp hkmem with ⟨p, hp, hpk⟩
      apply hmem
      exact List.any_eq_true.mpr ⟨p, hp, by simpa using hpk⟩
    simp only [List.map_cons, List.map_nil]
    rw [List.nodup_append]
    exact ⟨h, List.nodup_singleton k, by simpa using hk⟩

theorem filter_key_nil_of_not_mem {κ α : Type} [DecidableEq κ]
    {m : List (κ × α)} {k : κ} (h : k ∉ m.map Prod.fst) :
    m.filter (fun p => p.1 = k) = [] := by
  induction m with
  | nil => rfl
  | cons p rest ih =>
    simp only [List.map_cons, List.mem_cons, not_or] at h
    rw [List.filter_cons, if_neg (by simpa using fun hp => h.1 hp.symm)]
    exact ih h.2

theorem count_key_of_nodup {κ α : Type} [DecidableEq κ] (m : List (κ × α))
    (k : κ) (h : (m.map Prod.fst).Nodup) :
    (m.filter (fun p => p.1 = k)).length
      = if (getKey m k).isSome then 1 else 0 := by
  induction m with
  | nil => rfl
  | cons p rest ih =>
    simp only [List.map_cons, List.nodup_cons] at h
    by_cases hp : p.1 = k
    · have hnot : k ∉ rest.map Prod.fst := hp ▸ h.1
      rw [List.filter_cons, if_pos (by simpa using hp),
        filter_key_nil_of_not_mem hnot, getKey, if_pos hp]
      rfl
    · rw [List.filter_cons, if_neg (by simpa using hp), getKey, if_neg hp]
      exact ih h.2

theorem registerTask_keys_nodup {now date : ℤ} {reg : List (String × ℤ)}
    (task : Task) (h : (reg.map Prod.fst).Nodup) :
    ((registerTask now date reg task).map Prod.fst).Nodup := by
  unfold registerTask
  cases task.reminderTime with
  | none => exact h
  | some tm =>
    dsimp only
    by_cases hd : date * msPerDay + tm - now ≤ 0
    · rw [if_pos hd]
      exact h
    · rw [if_neg hd]
      exact keys_nodup_setKey task.id _ h

theorem inner_fold_keys_nodup (now date : ℤ) :
    ∀ (list : List Task) (reg : List (String × ℤ)),
      (reg.map Prod.fst).Nodup →
      ((list.foldl (registerTask now date) reg).map Prod.fst).Nodup := by
  intro list
  induction list with
  | nil => intro reg h; exact h
  | cons t rest ih =>
    intro reg h
    rw [List.foldl_cons]
    exact ih _ (registerTask_keys_nodup t h)

theorem schedule_keys_nodup (oldReg : List (String × ℤ)) (tasks : TasksByDate)
    (now : ℤ) :
    ((scheduleReminders oldReg tasks now).map Prod.fst).Nodup := by
  rw [scheduleReminders]
  have haux : ∀ (entries : TasksByDate) (reg : List (String × ℤ)),
      (reg.map Prod.fst).Nodup →
      ((entries.foldl
          (fun reg entry => entry.2.foldl (registerTask now entry.1) reg)
          reg).map Prod.fst).Nodup := by
    intro entries
    induction entries with
    | nil => intro reg h; exact h
    | cons e rest ih =>
      intro reg h
      rw [List.foldl_cons]
      exact ih _ (inner_fold_keys_nodup now e.1 e.2 reg h)
  exact haux tasks [] (by simp)

theorem inner_fold_key (now date : ℤ) :
    ∀ (list : List Task) (reg : List (String × ℤ)) (tid : String),
      (getKey (list.foldl (registerTask now date) reg) tid).isSome
        = ((getKey reg tid).isSome
            || list.any (fun t => t.id = tid && taskEligible date now t)) := by
  intro list
  induction list with
  | nil =>
    intro reg tid
    simp
  | cons t rest ih =>
    intro reg tid
    rw [List.foldl_cons, ih, List.any_cons]
    unfold registerTask taskEligible
    cases t.reminderTime with
    | none => simp
    | some tm =>
      dsimp only
      by_cases hd : date * msPerDay + tm - now ≤ 0
      · rw [if_pos hd]
        have : ¬ (0 < date * msPerDay + tm - now) := by omega
        simp [this]
      · rw [if_neg hd]
        have hlt : (0 : ℤ) < date * msPerDay + tm - now := by omega
        by_cases htid : tid = t.id
        · rw [htid, getKey_setKey_self]
          simp [hlt]
        · rw [getKey_setKey_ne reg t.id tid _ htid]
          have : ¬ (t.id = tid) := fun h => htid h.symm
          simp [this]

theorem schedule_key (oldReg : List (String × ℤ)) (tasks : TasksByDate)
    (now : ℤ) (tid : String) :
    (getKey (scheduleReminders oldReg tasks now) tid).isSome
      = eligible tasks now tid := by
  rw [scheduleReminders, eligible]
  have haux : ∀ (entries : TasksByDate) (reg : List (String × ℤ)),
      (getKey (entries.foldl
          (fun reg entry => entry.2.foldl (registerTask now entry.1) reg) reg)
        tid).isSome
        = ((getKey reg tid).isSome
            || entries.any (fun e =>
                e.2.any (fun t => t.id = tid && taskEligible e.1 now t))) := by
    intro entries
    induction entries with
    | nil => intro reg; simp
    | cons e rest ih =>
      intro reg
      rw [List.foldl_cons, ih, List.any_cons, inner_fold_key now e.1 e.2 reg tid]
      rw [Bool.or_assoc]
  rw [haux tasks []]
  simp [getKey]

theorem eligible_deleteTask (tasks : TasksByDate) (now : ℤ) (tid : String)
    (date : ℤ) (honly : ∀ e ∈ tasks, ∀ t ∈ e.2, t.id = tid → e.1 = date) :
    eligible (deleteTask tasks date tid) now tid = false := by
  rw [eligible]
  by_contra hcon
  have hany : (deleteTask tasks date tid).any (fun entry =>
      entry.2.any (fun task => task.id = tid && taskEligible entry.1 now task))
      = true := by
    revert hcon
    cases (deleteTask tasks date tid).any (fun entry =>
      entry.2.any (fun task => task.id = tid && taskEligible entry.1 now task))
    · simp
    · simp
  rcases List.any_eq_true.mp hany with ⟨e, he, hinner⟩
  rcases List.any_eq_true.mp hinner with ⟨t, ht, htid⟩
  have htid' : t.id = tid := by
    have h2 := htid
    simp only [Bool.and_eq_true, decide_eq_true_eq] at h2
    exact h2.1
  rw [deleteTask] at he
  rcases mem_setKey he with heq | ⟨hmem, hne⟩
  · have : t ∈ ((getKey tasks date).getD []).filter (fun t => t.id ≠ tid) := by
      have := congrArg Prod.snd heq
      simp only at this
      rw [this] at ht
      exact ht
    have hne2 : t.id ≠ tid := by simpa using List.of_mem_filter this
    exact hne2 htid'
  · exact hne (honly e hmem t ht htid')

/-! ### Claim C7 -/

/-- C7: rescheduling ignores the old registry (all previous timers are
cancelled); each task id holds exactly one registered action when some task
with that id has a non-empty reminder time and a strictly future fire
instant, and zero otherwise; deleting such a task (when its id lives only
under the deleted date) and rescheduling leaves zero registered deliveries
for it. -/
theorem scheduleReminders_spec (oldRegA oldRegB : List (String × ℤ))
    (tasks : TasksByDate) (now : ℤ) (tid : String) (date : ℤ) :
    scheduleReminders oldRegA tasks now = scheduleReminders oldRegB tasks now ∧
      timerCount (scheduleReminders oldRegA tasks now) tid
        = (if eligible tasks now tid then 1 else 0) ∧
      ((∀ e ∈ tasks, ∀ t ∈ e.2, t.id = tid → e.1 = date) →
        timerCount (scheduleReminders oldRegA (deleteTask tasks date tid) now)
          tid = 0) := by
  have hcount : ∀ (ts : TasksByDate),
      timerCount (scheduleReminders oldRegA ts now) tid
        = (if eligible ts now tid then 1 else 0) := by
    intro ts
    rw [timerCount,
      count_key_of_nodup _ tid (schedule_keys_nodup oldRegA ts now),
      schedule_key oldRegA ts now tid]
  refine ⟨rfl, hcount tasks, fun honly => ?_⟩
  rw [hcount (deleteTask tasks date tid),
    eligible_deleteTask tasks now tid date honly]
  simp

theorem scheduleReminders_spec_witness :
    scheduleReminders [("zombie", 5)] witnessTasks 0
        = scheduleReminders [] witnessTasks 0 ∧
      timerCount (scheduleReminders [("zombie", 5)] witnessTasks 0) "t1"
        = (if eligible witnessTasks 0 "t1" then 1 else 0) ∧
      timerCount
        (scheduleReminders [("zombie", 5)] (deleteTask witnessTasks 1 "t1") 0)
        "t1" = 0 := by
  refine ⟨(scheduleReminders_spec [("zombie", 5)] [] witnessTasks 0 "t1" 1).1,
    (scheduleReminders_spec [("zombie", 5)] [] witnessTasks 0 "t1" 1).2.1,
    (scheduleReminders_spec [("zombie", 5)] [] witnessTasks 0 "t1" 1).2.2 ?_⟩
  intro e he t ht _
  simp only [witnessTasks, List.mem_singleton] at he
  rw [he]

/-! ### Claim C9 -/

/-- C9: adding a habit appends it and back-fills `false` under its id into
every existing date's history entry (other keys untouched); removing a habit
filters it out of the list and deletes its key from every date's entry. -/
theorem habit_sync_spec (habits : List Habit) (history : History)
    (input : String) (nowMs : ℤ) (id : String) :
    (jsTrim input ≠ "" →
      habits.any (fun h => h.id = slugify (jsTrim input) nowMs) = false →
      (handleAddHabit habits history input nowMs).1
          = habits ++ [⟨slugify (jsTrim input) nowMs, jsTrim input⟩] ∧
        ((handleAddHabit habits history input nowMs).2).map Prod.fst
          = history.map Prod.fst ∧
        (∀ e ∈ (handleAddHabit habits history input nowMs).2,
          getKey e.2.habits (slugify (jsTrim input) nowMs) = some false) ∧
        (∀ e ∈ history, ∀ k : String, k ≠ slugify (jsTrim input) nowMs →
          getKey (setKey e.2.habits (slugify (jsTrim input) nowMs) false) k
            = getKey e.2.habits k)) ∧
      ((handleDeleteHabit habits history id).1
          = habits.filter (fun h => h.id ≠ id) ∧
        ((handleDeleteHabit habits history id).2).map Prod.fst
          = history.map Prod.fst ∧
        (∀ e ∈ (handleDeleteHabit habits history id).2,
          getKey e.2.habits id = none) ∧
        (∀ e ∈ history, ∀ k : String, k ≠ id →
          getKey (removeKey e.2.habits id) k = getKey e.2.habits k)) := by
  constructor
  · intro htrim hdup
    have hcond : ¬ (habits.any (fun h => h.id = slugify (jsTrim input) nowMs)
        = true) := by
      rw [hdup]
      simp
    rw [handleAddHabit]
    simp only [if_neg htrim, if_neg hcond]
    refine ⟨by trivial, ?_, ?_, ?_⟩
    · rw [List.map_map]
      rfl
    · intro e he
      rcases List.mem_map.mp he with ⟨p, _, rfl⟩
      exact getKey_setKey_self p.2.habits _ false
    · intro e _ k hk
      exact getKey_setKey_ne e.2.habits _ k false hk
  · refine ⟨rfl, ?_, ?_, ?_⟩
    · rw [handleDeleteHabit]
      simp only
      rw [List.map_map]
      rfl
    · intro e he
      rw [handleDeleteHabit] at he
      simp only at he
      rcases List.mem_map.mp he with ⟨p, _, rfl⟩
      exact getKey_removeKey_self p.2.habits id
    · intro e _ k hk
      exact getKey_removeKey_ne e.2.habits id k hk

theorem habit_sync_spec_witness :
    ((handleAddHabit habitA oneDayHist " Gym " 0).1
        = habitA ++ [⟨slugify (jsTrim " Gym ") 0, jsTrim " Gym "⟩] ∧
      ((handleAddHabit habitA oneDayHist " Gym " 0).2).map Prod.fst
        = oneDayHist.map Prod.fst ∧
      (∀ e ∈ (handleAddHabit habitA oneDayHist " Gym " 0).2,
        getKey e.2.habits (slugify (jsTrim " Gym ") 0) = some false) ∧
      (∀ e ∈ oneDayHist, ∀ k : String, k ≠ slugify (jsTrim " Gym ") 0 →
        getKey (setKey e.2.habits (slugify (jsTrim " Gym ") 0) false) k
          = getKey e.2.habits k)) ∧
      ((handleDeleteHabit habitA oneDayHist "a").1
          = habitA.filter (fun h => h.id ≠ "a") ∧
        ((handleDeleteHabit habitA oneDayHist "a").2).map Prod.fst
          = oneDayHist.map Prod.fst ∧
        (∀ e ∈ (handleDeleteHabit habitA oneDayHist "a").2,
          getKey e.2.habits "a" = none) ∧
        (∀ e ∈ oneDayHist, ∀ k : String, k ≠ "a" →
          getKey (removeKey e.2.habits "a") k = getKey e.2.habits k)) :=
  ⟨(habit_sync_spec habitA oneDayHist " Gym " 0 "a").1 (by decide) (by decide),
    (habit_sync_spec habitA oneDayHist " Gym " 0 "a").2⟩

/-! ### Monthly-insight lemmas -/

theorem bool_eq_false {b : Bool} (h : ¬ b = true) : b = false := by
  cases b
  · rfl
  · exact absurd rfl h

theorem any_key_eq_true {κ α : Type} [DecidableEq κ] {m : List (κ × α)}
    {k : κ} (h : k ∈ m.map Prod.fst) : (m.any (fun p => p.1 = k)) = true := by
  rcases List.mem_map.mp h with ⟨p, hp, hpk⟩
  exact List.any_eq_true.mpr ⟨p, hp, by simpa using hpk⟩

theorem any_key_eq_false {κ α : Type} [DecidableEq κ] {m : List (κ × α)}
    {k : κ} (h : k ∉ m.map Prod.fst) : (m.any (fun p => p.1 = k)) = false := by
  rw [List.any_eq_false]
  intro p hp
  simp only [decide_eq_true_eq]
  intro hpk
  exact h (List.mem_map.mpr ⟨p, hp, hpk⟩)

theorem setKey_append {κ α : Type} [DecidableEq κ] {m : List (κ × α)} {k : κ}
    (v : α) (h : k ∉ m.map Prod.fst) : setKey m k v = m ++ [(k, v)] := by
  rw [setKey, if_neg]
  rw [any_key_eq_false h]
  simp

theorem getKey_map_habits (full : List Habit) (g : String → ℕ) (hid : String)
    (hmem : hid ∈ full.map (fun h => h.id)) :
    getKey (full.map (fun h => (h.id, g h.id))) hid = some (g hid) := by
  induction full with
  | nil => simp at hmem
  | cons h t ih =>
    by_cases hh : h.id = hid
    · rw [List.map_cons, getKey, if_pos hh, hh]
    · rw [List.map_cons, getKey, if_neg hh]
      apply ih
      rcases List.mem_map.mp hmem with ⟨x, hx, hxid⟩
      rcases List.mem_cons.mp hx with rfl | hx
      · exact absurd hxid hh
      · exact List.mem_map.mpr ⟨x, hx, hxid⟩

theorem setKey_map_habits (full : List Habit) (g : String → ℕ) (hid : String)
    (v : ℕ) (hmem : hid ∈ full.map (fun h => h.id)) :
    setKey (full.map (fun h => (h.id, g h.id))) hid v
      = full.map (fun h => (h.id, if h.id = hid then v else g h.id)) := by
  have hkeys : hid ∈ (full.map (fun h => (h.id, g h.id))).map Prod.fst := by
    rw [List.map_map]
    exact hmem
  rw [setKey, if_pos (any_key_eq_true hkeys), List.map_map]
  apply List.map_congr_left
  intro h _
  by_cases hh : h.id = hid
  · simp [hh]
  · simp [hh]

theorem initCounts_aux :
    ∀ (hs q : List Habit), (((q ++ hs).map (fun h => h.id)).Nodup) →
      hs.foldl (fun acc h => setKey acc h.id 0)
          (q.map (fun h => (h.id, (0 : ℕ))))
        = (q ++ hs).map (fun h => (h.id, (0 : ℕ))) := by
  intro hs
  induction hs with
  | nil =>
    intro q _
    simp
  | cons h t ih =>
    intro q hnd
    have hnotin : h.id ∉ q.map (fun x => x.id) := by
      intro hmem
      rcases List.mem_map.mp hmem with ⟨x, hxq, hxid⟩
      have : (q ++ h :: t).map (fun y => y.id)
          = q.map (fun y => y.id) ++ h.id :: t.map (fun y => y.id) := by
        simp
      rw [this] at hnd
      rcases List.nodup_append.mp hnd with ⟨_, _, hdisj⟩
      exact hdisj (List.mem_map.mpr ⟨x, hxq, hxid⟩) (List.mem_cons_self _ _)
    have hkeys : h.id ∉ (q.map (fun x => (x.id, (0 : ℕ)))).map Prod.fst := by
      rw [List.map_map]
      exact hnotin
    rw [List.foldl_cons, setKey_append 0 hkeys]
    have hstep : q.map (fun x => (x.id, (0 : ℕ))) ++ [(h.id, 0)]
        = (q ++ [h]).map (fun x => (x.id, (0 : ℕ))) := by
      simp
    rw [hstep, ih (q ++ [h]) (by simpa using hnd)]
    simp

theorem initCounts_eq (habits : List Habit)
    (hnd : (habits.map (fun h => h.id)).Nodup) :
    initCounts habits = habits.map (fun h => (h.id, (0 : ℕ))) := by
  have := initCounts_aux habits [] (by simpa using hnd)
  simpa [initCounts] using this

theorem bump_aux (record : HistoryEntry) (full : List Habit)
    (hnd : (full.map (fun h => h.id)).Nodup) :
    ∀ (hs : List Habit) (g : String → ℕ), hs.Sublist full →
      hs.foldl
          (fun c h =>
            if getBool record.habits h.id then
              setKey c h.id ((getKey c h.id).getD 0 + 1)
            else c)
          (full.map (fun h => (h.id, g h.id)))
        = full.map (fun h => (h.id,
            g h.id +
              if (hs.any (fun x => x.id = h.id)) && getBool record.habits h.id
              then 1 else 0)) := by
  intro hs
  induction hs with
  | nil =>
    intro g _
    rw [List.foldl_nil]
    apply List.map_congr_left
    intro h _
    simp
  | cons x t ih =>
    intro g hsub
    have hxfull : x ∈ full := hsub.subset (List.mem_cons_self x t)
    have hxid : x.id ∈ full.map (fun h => h.id) :=
      List.mem_map.mpr ⟨x, hxfull, rfl⟩
    have htsub : t.Sublist full := ((List.Sublist.refl t).cons x).trans hsub
    have hxt : x.id ∉ t.map (fun h => h.id) := by
      have hmapsub : ((x :: t).map (fun h => h.id)).Sublist
          (full.map (fun h => h.id)) := hsub.map _
      have hnd2 : ((x :: t).map (fun h => h.id)).Nodup := hnd.sublist hmapsub
      exact (List.nodup_cons.mp (by simpa using hnd2)).1
    by_cases hb : getBool record.habits x.id = true
    · rw [List.foldl_cons, if_pos hb,
        getKey_map_habits full g x.id hxid, Option.getD_some,
        setKey_map_habits full g x.id (g x.id + 1) hxid,
        ih (fun s => if s = x.id then g x.id + 1 else g s) htsub]
      apply List.map_congr_left
      intro h hh
      by_cases hhx : h.id = x.id
      · have hany : (t.any (fun y => y.id = x.id)) = false := by
          by_contra hcon
          have htrue : (t.any (fun y => y.id = x.id)) = true := by
            cases hal : t.any (fun y => y.id = x.id)
            · exact absurd hal hcon
            · rfl
          rcases List.any_eq_true.mp htrue with ⟨y, hy, hyid⟩
          simp only [decide_eq_true_eq] at hyid
          exact hxt (List.mem_map.mpr ⟨y, hy, hyid⟩)
        have hbh : getBool record.habits h.id = true := by rw [hhx]; exact hb
        simp [hhx, hany, hb, hbh, List.any_cons]
      · have hne : ¬ (x.id = h.id) := fun hcon => hhx hcon.symm
        simp [hhx, hne, List.any_cons]
    · have hb2 : getBool record.habits x.id = false := bool_eq_false hb
      rw [List.foldl_cons, if_neg hb, ih g htsub]
      apply List.map_congr_left
      intro h hh
      by_cases hhx : h.id = x.id
      · have hbh : getBool record.habits h.id = false := by rw [hhx]; exact hb2
        simp [hbh]
      · have hne : ¬ (x.id = h.id) := fun hcon => hhx hcon.symm
        simp [hne, List.any_cons]

theorem bumpCounts_map (record : HistoryEntry) (full : List Habit)
    (hnd : (full.map (fun h => h.id)).Nodup) (g : String → ℕ) :
    bumpCounts record full (full.map (fun h => (h.id, g h.id)))
      = full.map (fun h => (h.id,
          g h.id + if getBool record.habits h.id then 1 else 0)) := by
  rw [bumpCounts, bump_aux record full hnd full g (List.Sublist.refl full)]
  apply List.map_congr_left
  intro h hh
  have hany : (full.any (fun x => x.id = h.id)) = true :=
    List.any_eq_true.mpr ⟨h, hh, by simp⟩
  simp [hany]

theorem monthCounts_aux (history : History) (full : List Habit)
    (hnd : (full.map (fun h => h.id)).Nodup) :
    ∀ (days : List ℤ) (g : String → ℕ),
      days.foldl
          (fun counts day =>
            match getKey history day with
            | none => counts
            | some record => bumpCounts record full counts)
          (full.map (fun h => (h.id, g h.id)))
        = full.map (fun h => (h.id,
            g h.id + (days.filter (fun day =>
              match getKey history day with
              | some r => getBool r.habits h.id
              | none => false)).length)) := by
  intro days
  induction days with
  | nil =>
    intro g
    rw [List.foldl_nil]
    apply List.map_congr_left
    intro h _
    simp
  | cons d t ih =>
    intro g
    rw [List.foldl_cons]
    cases hk : getKey history d with
    | none =>
      dsimp only
      rw [ih g]
      apply List.map_congr_left
      intro h _
      rw [List.filter_cons]
      simp [hk]
    | some record =>
      dsimp only
      rw [bumpCounts_map record full hnd g,
        ih (fun s => g s + if getBool record.habits s then 1 else 0)]
      apply List.map_congr_left
      intro h _
      rw [List.filter_cons]
      by_cases hbh : getBool record.habits h.id = true
      · simp [hk, hbh]
        omega
      · simp [hk, bool_eq_false hbh]

theorem monthCounts_eq (history : History) (habits : List Habit) (today : ℤ)
    (hnd : (habits.map (fun h => h.id)).Nodup) :
    monthCounts history habits today
      = habits.map (fun h => (h.id, trueCount history today h.id)) := by
  rw [monthCounts, initCounts_eq habits hnd]
  have hzero : habits.map (fun h => (h.id, (0 : ℕ)))
      = habits.map (fun h => (h.id, (fun _ : String => (0 : ℕ)) h.id)) := rfl
  rw [hzero, monthCounts_aux history habits hnd (lastNDates today 30)
    (fun _ => 0)]
  apply List.map_congr_left
  intro h _
  rw [trueCount]
  simp

theorem foldl_best_ge (rest : List (String × ℕ)) :
    ∀ e : String × ℕ,
      e.2 ≤ (rest.foldl (fun a b => if b.2 > a.2 then b else a) e).2 := by
  induction rest with
  | nil => intro e; exact le_refl _
  | cons b t ih =>
    intro e
    rw [List.foldl_cons]
    refine le_trans ?_ (ih _)
    by_cases hbe : b.2 > e.2
    · rw [if_pos hbe]
      omega
    · rw [if_neg hbe]

theorem foldl_worst_le (rest : List (String × ℕ)) :
    ∀ e : String × ℕ,
      (rest.foldl (fun a b => if b.2 < a.2 then b else a) e).2 ≤ e.2 := by
  induction rest with
  | nil => intro e; exact le_refl _
  | cons b t ih =>
    intro e
    rw [List.foldl_cons]
    refine le_trans (ih _) ?_
    by_cases hbe : b.2 < e.2
    · rw [if_pos hbe]
      omega
    · rw [if_neg hbe]

theorem foldl_best_split (rest : List (String × ℕ)) :
    ∀ e : String × ℕ,
      ∃ pre post,
        e :: rest
            = pre ++ (rest.foldl (fun a b => if b.2 > a.2 then b else a) e)
                :: post ∧
          (∀ x ∈ pre,
            x.2 < (rest.foldl (fun a b => if b.2 > a.2 then b else a) e).2) ∧
          (∀ x ∈ post,
            x.2 ≤ (rest.foldl (fun a b => if b.2 > a.2 then b else a) e).2) := by
  induction rest with
  | nil =>
    intro e
    exact ⟨[], [], rfl, by simp, by simp⟩
  | cons b t ih =>
    intro e
    rw [List.foldl_cons]
    by_cases hbe : b.2 > e.2
    · rw [if_pos hbe]
      rcases ih b with ⟨pre, post, hsplit, hpre, hpost⟩
      refine ⟨e :: pre, post, ?_, ?_, hpost⟩
      · rw [List.cons_append, ← hsplit]
      · intro x hx
        rcases List.mem_cons.mp hx with rfl | hx
        · exact lt_of_lt_of_le hbe (foldl_best_ge t b)
        · exact hpre x hx
    · rw [if_neg hbe]
      have hble : b.2 ≤ e.2 := by omega
      rcases ih e with ⟨pre, post, hsplit, hpre, hpost⟩
      cases pre with
      | nil =>
        rw [List.nil_append] at hsplit
        have he : t.foldl (fun a b => if b.2 > a.2 then b else a) e = e ∧
            post = t := by
          have := hsplit
          rw [List.cons.injEq] at this
          exact ⟨this.1.symm, this.2.symm⟩
        refine ⟨[], b :: t, ?_, by simp, ?_⟩
        · rw [List.nil_append, he.1]
        · intro x hx
          rcases List.mem_cons.mp hx with rfl | hx
          · rw [he.1]
            exact hble
          · rw [← he.2] at hx
            exact hpost x hx
      | cons p ps =>
        rw [List.cons_append, List.cons.injEq] at hsplit
        obtain ⟨rfl, ht⟩ := hsplit
        refine ⟨e :: b :: ps, post, ?_, ?_, hpost⟩
        · rw [List.cons_append, List.cons_append, ← ht]
        · intro x hx
          have hpfirst : e.2
              < (t.foldl (fun a b => if b.2 > a.2 then b else a) e).2 :=
            hpre e (List.mem_cons_self e ps)
          rcases List.mem_cons.mp hx with rfl | hx
          · exact hpfirst
          · rcases List.mem_cons.mp hx with rfl | hx
            · exact lt_of_le_of_lt hble hpfirst
            · exact hpre x (List.mem_cons_of_mem e hx)

theorem foldl_worst_split (rest : List (String × ℕ)) :
    ∀ e : String × ℕ,
      ∃ pre post,
        e :: rest
            = pre ++ (rest.foldl (fun a b => if b.2 < a.2 then b else a) e)
                :: post ∧
          (∀ x ∈ pre,
            (rest.foldl (fun a b => if b.2 < a.2 then b else a) e).2 < x.2) ∧
          (∀ x ∈ post,
            (rest.foldl (fun a b => if b.2 < a.2 then b else a) e).2 ≤ x.2) := by
  induction rest with
  | nil =>
    intro e
    exact ⟨[], [], rfl, by simp, by simp⟩
  | cons b t ih =>
    intro e
    rw [List.foldl_cons]
    by_cases hbe : b.2 < e.2
    · rw [if_pos hbe]
      rcases ih b with ⟨pre, post, hsplit, hpre, hpost⟩
      refine ⟨e :: pre, post, ?_, ?_, hpost⟩
      · rw [List.cons_append, ← hsplit]
      · intro x hx
        rcases List.mem_cons.mp hx with rfl | hx
        · exact lt_of_le_of_lt (foldl_worst_le t b) hbe
        · exact hpre x hx
    · rw [if_neg hbe]
      have hble : e.2 ≤ b.2 := by omega
      rcases ih e with ⟨pre, post, hsplit, hpre, hpost⟩
      cases pre with
      | nil =>
        rw [List.nil_append] at hsplit
        have he : t.foldl (fun a b => if b.2 < a.2 then b else a) e = e ∧
            post = t := by
          have := hsplit
          rw [List.cons.injEq] at this
          exact ⟨this.1.symm, this.2.symm⟩
        refine ⟨[], b :: t, ?_, by simp, ?_⟩
        · rw [List.nil_append, he.1]
        · intro x hx
          rcases List.mem_cons.mp hx with rfl | hx
          · rw [he.1]
            exact hble
          · rw [← he.2] at hx
            exact hpost x hx
      | cons p ps =>
        rw [List.cons_append, List.cons.injEq] at hsplit
        obtain ⟨rfl, ht⟩ := hsplit
        refine ⟨e :: b :: ps, post, ?_, ?_, hpost⟩
        · rw [List.cons_append, List.cons_append, ← ht]
        · intro x hx
          have hpfirst : (t.foldl (fun a b => if b.2 < a.2 then b else a) e).2
              < e.2 :=
            hpre e (List.mem_cons_self e ps)
          rcases List.mem_cons.mp hx with rfl | hx
          · exact hpfirst
          · rcases List.mem_cons.mp hx with rfl | hx
            · exact lt_of_lt_of_le hpfirst hble
            · exact hpre x (List.mem_cons_of_mem e hx)

theorem map_eq_append_cons {α β : Type} (f : α → β) :
    ∀ (pre : List β) (l : List α) (r : β) (post : List β),
      l.map f = pre ++ r :: post →
      ∃ l₁ a l₂, l = l₁ ++ a :: l₂ ∧ l₁.map f = pre ∧ f a = r ∧
        l₂.map f = post := by
  intro pre
  induction pre with
  | nil =>
    intro l r post h
    cases l with
    | nil => simp at h
    | cons a l₂ =>
      rw [List.map_cons, List.nil_append, List.cons.injEq] at h
      exact ⟨[], a, l₂, rfl, rfl, h.1, h.2⟩
  | cons p ps ih =>
    intro l r post h
    cases l with
    | nil => simp at h
    | cons a l' =>
      rw [List.map_cons, List.cons_append, List.cons.injEq] at h
      rcases ih l' r post h.2 with ⟨l₁, a', l₂, rfl, hm, hr, hp⟩
      exact ⟨a :: l₁, a', l₂, rfl, by rw [List.map_cons, hm, h.1], hr, hp⟩

theorem find_first_id :
    ∀ (pre : List Habit) (b : Habit) (post : List Habit),
      (((pre ++ b :: post).map (fun h => h.id)).Nodup) →
      (pre ++ b :: post).find? (fun h => h.id = b.id) = some b := by
  intro pre
  induction pre with
  | nil =>
    intro b post _
    rw [List.nil_append]
    exact List.find?_cons_of_pos post (by simp)
  | cons p ps ih =>
    intro b post hnd
    rw [List.cons_append]
    have hnd2 : (p.id :: ((ps ++ b :: post).map (fun h => h.id))).Nodup := by
      simpa using hnd
    have hne : ¬ (p.id = b.id) := by
      intro hcon
      apply (List.nodup_cons.mp hnd2).1
      rw [hcon]
      exact List.mem_map.mpr
        ⟨b, List.mem_append_right ps (List.mem_cons_self b post), rfl⟩
    rw [List.find?_cons_of_neg (ps ++ b :: post) (by simpa using hne)]
    exact ih b post (List.nodup_cons.mp hnd2).2

/-! ### Claim C5 -/

/-- C5: with unique habit ids, `monthlyInsight` returns as `bestHabit` the
habit whose 30-day true-count is strictly above every habit listed before it
and at least every habit listed after it (first habit wins ties), and as
`worstHabit` the analogous minimum; both are `none` for an empty habit
list. -/
theorem monthlyInsight_spec (history : History) (habits : List Habit)
    (today : ℤ) (hnd : (habits.map (fun h => h.id)).Nodup) :
    (habits = [] → monthlyInsight history habits today = (none, none)) ∧
      (habits ≠ [] →
        ∃ b w : Habit,
          (monthlyInsight history habits today).1 = some b ∧
            (monthlyInsight history habits today).2 = some w ∧
            (∃ pre post, habits = pre ++ b :: post ∧
              (∀ h ∈ pre,
                trueCount history today h.id < trueCount history today b.id) ∧
              (∀ h ∈ post,
                trueCount history today h.id ≤ trueCount history today b.id)) ∧
            (∃ pre post, habits = pre ++ w :: post ∧
              (∀ h ∈ pre,
                trueCount history today w.id < trueCount history today h.id) ∧
              (∀ h ∈ post,
                trueCount history today w.id ≤ trueCount history today h.id))) := by
  constructor
  · rintro rfl
    have h0 : monthCounts history [] today = [] := by
      rw [monthCounts_eq history [] today (by simp)]
      rfl
    rw [monthlyInsight, h0]
  · intro hne
    obtain ⟨h₀, hs, rfl⟩ : ∃ h₀ hs, habits = h₀ :: hs := by
      cases habits with
      | nil => exact absurd rfl hne
      | cons a l => exact ⟨a, l, rfl⟩
    have hentries : monthCounts history (h₀ :: hs) today
        = (h₀.id, trueCount history today h₀.id)
            :: hs.map (fun h => (h.id, trueCount history today h.id)) := by
      rw [monthCounts_eq history (h₀ :: hs) today hnd, List.map_cons]
    obtain ⟨rB, hrB⟩ : ∃ r,
        (hs.map (fun h => (h.id, trueCount history today h.id))).foldl
            (fun a b => if b.2 > a.2 then b else a)
            (h₀.id, trueCount history today h₀.id) = r := ⟨_, rfl⟩
    obtain ⟨rW, hrW⟩ : ∃ r,
        (hs.map (fun h => (h.id, trueCount history today h.id))).foldl
            (fun a b => if b.2 < a.2 then b else a)
            (h₀.id, trueCount history today h₀.id) = r := ⟨_, rfl⟩
    have hmi : monthlyInsight history (h₀ :: hs) today
        = ((h₀ :: hs).find? (fun h => h.id = rB.1),
           (h₀ :: hs).find? (fun h => h.id = rW.1)) := by
      simp only [monthlyInsight, hentries, hrB, hrW]
    rcases foldl_best_split
        (hs.map (fun h => (h.id, trueCount history today h.id)))
        (h₀.id, trueCount history today h₀.id) with
      ⟨preB, postB, hsB, hpreB, hpostB⟩
    rw [hrB] at hsB hpreB hpostB
    rcases foldl_worst_split
        (hs.map (fun h => (h.id, trueCount history today h.id)))
        (h₀.id, trueCount history today h₀.id) with
      ⟨preW, postW, hsW, hpreW, hpostW⟩
    rw [hrW] at hsW hpreW hpostW
    have hmapB : (h₀ :: hs).map (fun h => (h.id, trueCount history today h.id))
        = preB ++ rB :: postB := by
      rw [List.map_cons]
      exact hsB
    rcases map_eq_append_cons (fun h => (h.id, trueCount history today h.id))
        preB (h₀ :: hs) rB postB hmapB with
      ⟨lB1, hb, lB2, hsplitB, hmB1, hFB, hmB2⟩
    have hmapW : (h₀ :: hs).map (fun h => (h.id, trueCount history today h.id))
        = preW ++ rW :: postW := by
      rw [List.map_cons]
      exact hsW
    rcases map_eq_append_cons (fun h => (h.id, trueCount history today h.id))
        preW (h₀ :: hs) rW postW hmapW with
      ⟨lW1, hw, lW2, hsplitW, hmW1, hFW, hmW2⟩
    have hidB : rB.1 = hb.id := by
      rw [← hFB]
    have hidW : rW.1 = hw.id := by
      rw [← hFW]
    have hfindB : (h₀ :: hs).find? (fun h => h.id = rB.1) = some hb := by
      rw [hidB, hsplitB]
      exact find_first_id lB1 hb lB2 (by rw [← hsplitB]; exact hnd)
    have hfindW : (h₀ :: hs).find? (fun h => h.id = rW.1) = some hw := by
      rw [hidW, hsplitW]
      exact find_first_id lW1 hw lW2 (by rw [← hsplitW]; exact hnd)
    refine ⟨hb, hw, ?_, ?_, ⟨lB1, lB2, hsplitB, ?_, ?_⟩,
      ⟨lW1, lW2, hsplitW, ?_, ?_⟩⟩
    · rw [hmi]
      exact hfindB
    · rw [hmi]
      exact hfindW
    · intro h hh
      have hFh : (h.id, trueCount history today h.id) ∈ preB := by
        rw [← hmB1]
        exact List.mem_map_of_mem _ hh
      have hlt := hpreB _ hFh
      rw [← hFB] at hlt
      simpa using hlt
    · intro h hh
      have hFh : (h.id, trueCount history today h.id) ∈ postB := by
        rw [← hmB2]
        exact List.mem_map_of_mem _ hh
      have hle := hpostB _ hFh
      rw [← hFB] at hle
      simpa using hle
    · intro h hh
      have hFh : (h.id, trueCount history today h.id) ∈ preW := by
        rw [← hmW1]
        exact List.mem_map_of_mem _ hh
      have hlt := hpreW _ hFh
      rw [← hFW] at hlt
      simpa using hlt
    · intro h hh
      have hFh : (h.id, trueCount history today h.id) ∈ postW := by
        rw [← hmW2]
        exact List.mem_map_of_mem _ hh
      have hle := hpostW _ hFh
      rw [← hFW] at hle
      simpa using hle

theorem monthlyInsight_spec_witness :
    ∃ b w : Habit,
      (monthlyInsight [] [⟨"a", "A"⟩, ⟨"b", "B"⟩] 0).1 = some b ∧
        (monthlyInsight [] [⟨"a", "A"⟩, ⟨"b", "B"⟩] 0).2 = some w ∧
        (∃ pre post, [(⟨"a", "A"⟩ : Habit), ⟨"b", "B"⟩] = pre ++ b :: post ∧
          (∀ h ∈ pre, trueCount [] 0 h.id < trueCount [] 0 b.id) ∧
          (∀ h ∈ post, trueCount [] 0 h.id ≤ trueCount [] 0 b.id)) ∧
        (∃ pre post, [(⟨"a", "A"⟩ : Habit), ⟨"b", "B"⟩] = pre ++ w :: post ∧
          (∀ h ∈ pre, trueCount [] 0 w.id < trueCount [] 0 h.id) ∧
          (∀ h ∈ post, trueCount [] 0 w.id ≤ trueCount [] 0 h.id)) :=
  (monthlyInsight_spec [] [⟨"a", "A"⟩, ⟨"b", "B"⟩] 0 (by decide)).2 (by decide)

end HabitApp

namespace HabitServer

open HabitApp (Habit History TasksByDate)

/-! ### Claim C8 -/

/-- C8: `POST /api/data` stores the body with fallbacks — a missing,
non-array, or empty `habits` field becomes the 7 default seed habits, a
present nonempty array is kept as-is, and missing `history`/`tasksByDate`
become empty maps; the stored document carries the caller's identity. -/
theorem postDataHandler_spec (mobile : String) (body : DataBody) :
    ((body.habits = none ∨ body.habits = some .notArray
        ∨ body.habits = some (.arr []) →
      (postDataHandler mobile body).habits = DEFAULT_HABITS) ∧
      (∀ l : List Habit, l ≠ [] → body.habits = some (.arr l) →
        (postDataHandler mobile body).habits = l) ∧
      DEFAULT_HABITS.length = 7 ∧
      (body.history = none → (postDataHandler mobile body).history = []) ∧
      (body.tasksByDate = none →
        (postDataHandler mobile body).tasksByDate = []) ∧
      (postDataHandler mobile body).mobile = mobile) := by
  refine ⟨?_, ?_, rfl, ?_, ?_, rfl⟩
  · rintro (h | h | h) <;>
      simp [postDataHandler, h, DEFAULT_HABITS]
  · intro l hl hb
    have : l.length ≠ 0 := fun h => hl (List.length_eq_zero.mp h)
    simp [postDataHandler, hb, this]
  · intro h
    simp [postDataHandler, h]
  · intro h
    simp [postDataHandler, h]

theorem postDataHandler_spec_witness :
    (postDataHandler "9999" ⟨some (.arr []), none, none⟩).habits
        = DEFAULT_HABITS ∧
      (postDataHandler "9999" ⟨some (.arr []), none, none⟩).history = [] ∧
      (postDataHandler "9999" ⟨some (.arr []), none, none⟩).tasksByDate = [] :=
  ⟨(postDataHandler_spec "9999" ⟨some (.arr []), none, none⟩).1
      (Or.inr (Or.inr rfl)),
    (postDataHandler_spec "9999" ⟨some (.arr []), none, none⟩).2.2.2.1 rfl,
    (postDataHandler_spec "9999" ⟨some (.arr []), none, none⟩).2.2.2.2.1 rfl⟩

end HabitServer
